import Mathlib

/-!
Verification of the live-variables analysis pass (`LiveVariables/Pass.cpp`).

The pass consists of a `GenKillVisitor` (an `InstVisitor` computing, per
instruction, the set of values it generates and the set it kills) and a
`LiveVariablesAnalysis` function pass (a repeat-until-stable backward
dataflow fixpoint over the function's basic blocks).

The embedding below models:
  * LLVM `Value`s as a small inductive (`V`): compile-time constants,
    basic-block labels, and register-like values (instruction results,
    arguments, ...) identified by a numeric id;
  * `llvm::SetVector<Value *>` as an insertion-ordered duplicate-free list
    (`VSet`): `insert` appends when absent, `remove` deletes preserving the
    order of the remaining elements, and `==` compares the underlying
    vectors, i.e. it is order-sensitive;
  * `llvm::DenseMap` keyed by `Instruction *` / `BasicBlock *` as an
    association list keyed by the numeric id (`MapV`); the source never
    iterates these maps, so the entry order is irrelevant;
  * a function as an ordered list of basic blocks, each an ordered,
    non-empty list of instructions together with the ordered successor
    list of its terminator (mirroring `succ_begin`/`succ_end` order);
  * the non-terminating `while (Running)` loop of `runOnFunction` with an
    explicit fuel argument (`loop`), returning `none` when the fuel is
    exhausted before a changeless pass occurs.
-/

/-- An LLVM `Value` as seen by the pass: a compile-time constant
(`isa<Constant>`), a basic-block label (`isa<BasicBlock>`), or any other
value (instruction result, argument, ...) with identity `n`. -/
inductive V where
  | c (n : Nat)
  | lbl (n : Nat)
  | r (n : Nat)
deriving DecidableEq

/-- The instruction kinds distinguished by `GenKillVisitor`'s overridden
`visit` methods, in the order they appear in the source.  `call` carries
whether the call returns void (the visitor itself ignores this).
`unknown` stands for any instruction kind for which the visitor has no
override: `InstVisitor` then falls through to `visitInstruction`, which is
a no-op. -/
inductive Kind where
  | branch | indirectBr | invoke | resume | ret | switch | unreachable
  | binop
  | extractElement | insertElement | shuffleVector
  | extractValue | insertValue
  | alloca | atomicCmpXchg | atomicRMW | fence | getElementPtr | load | store
  | addrSpaceCast | bitcast | fpext | fptosi | fptoui | fptrunc | inttoptr
  | ptrtoint | sext | sitofp | trunc | uitofp | zext
  | call (retVoid : Bool) | fcmp | icmp | landingPad | phi | select | vaarg
  | unknown
deriving DecidableEq

/-- An instruction: its own value identity (`V.r id`), its kind, and its
ordered operand list. -/
structure Instr where
  id : Nat
  kind : Kind
  operands : List V
deriving DecidableEq

/-- A basic block: its label identity, its ordered non-empty instruction
list (the last one being the terminator), and the ordered list of
successor block ids derived from the terminator (the order of
`succ_begin`..`succ_end`). -/
structure Block where
  id : Nat
  instrs : List Instr
  succs : List Nat
deriving DecidableEq

/-- A function: its ordered list of basic blocks. -/
structure Fn where
  blocks : List Block
deriving DecidableEq

/-- `llvm::SetVector<Value *>`: a duplicate-free list in insertion order. -/
abbrev VSet := List V

/-- `SetVector::insert`: append at the end when the element is absent. -/
def svInsert (s : VSet) (v : V) : VSet :=
  if v ∈ s then s else s ++ [v]

/-- `SetVector::remove`: erase the element, keeping the order of the
remaining elements. -/
def svRemove (s : VSet) (v : V) : VSet :=
  s.filter (fun x => x ≠ v)

/-- A `DenseMap` keyed by instruction or block identity. -/
abbrev MapV := List (Nat × VSet)

/-- Map lookup (`count` ≠ 0 iff the result is `some`). -/
def mlook : MapV → Nat → Option VSet
  | [], _ => none
  | (a, v) :: t, k => if a = k then some v else mlook t k

/-- Map write (`operator[] = ...`): update in place or append a new entry. -/
def mset : MapV → Nat → VSet → MapV
  | [], k, v => [(k, v)]
  | (a, w) :: t, k, v => if a = k then (a, v) :: t else (a, w) :: mset t k v

/-- The mutable state of the pass object: the visitor's `GenSets` and
`KillSets`, and the engine's `InSets` (per block) and `OutSets` (per
instruction).  All four are member fields of the pass and are never
cleared between invocations of `runOnFunction`. -/
structure St where
  GenSets : MapV
  KillSets : MapV
  InSets : MapV
  OutSets : MapV
deriving DecidableEq

/-- The state of a freshly constructed pass object: all maps empty. -/
def st0 : St := ⟨[], [], [], []⟩

/-- `getGenSet`: `GenSets[I]`, an empty set when no entry exists. -/
def getGen (s : St) (i : Nat) : VSet := (mlook s.GenSets i).getD []

/-- `getKillSet`: `KillSets[I]`, an empty set when no entry exists. -/
def getKill (s : St) (i : Nat) : VSet := (mlook s.KillSets i).getD []

/-! ## The classifier (`GenKillVisitor`) -/

/-- Whether the `visit` method for this kind calls `addOperandsToGen`.
One arm per overridden method of `GenKillVisitor`; `unknown` falls through
to the no-op `visitInstruction`. -/
def gensOperands : Kind → Bool
  | .branch => true
  | .indirectBr => true
  | .invoke => true
  | .resume => true
  | .ret => true
  | .switch => true
  | .unreachable => false
  | .binop => true
  | .extractElement => true
  | .insertElement => true
  | .shuffleVector => true
  | .extractValue => true
  | .insertValue => true
  | .alloca => false
  | .atomicCmpXchg => true
  | .atomicRMW => true
  | .fence => false
  | .getElementPtr => true
  | .load => true
  | .store => true
  | .addrSpaceCast => true
  | .bitcast => true
  | .fpext => true
  | .fptosi => true
  | .fptoui => true
  | .fptrunc => true
  | .inttoptr => true
  | .ptrtoint => true
  | .sext => true
  | .sitofp => true
  | .trunc => true
  | .uitofp => true
  | .zext => true
  | .call _ => true
  | .fcmp => true
  | .icmp => true
  | .landingPad => true
  | .phi => true
  | .select => true
  | .vaarg => true
  | .unknown => false

/-- Whether the `visit` method for this kind calls `addResultToKill`.
Note `visitReturnInst`, `visitInvokeInst` and `visitCallInst` call it
unconditionally, regardless of whether the instruction produces a value. -/
def killsResult : Kind → Bool
  | .branch => false
  | .indirectBr => false
  | .invoke => true
  | .resume => false
  | .ret => true
  | .switch => false
  | .unreachable => false
  | .binop => true
  | .extractElement => true
  | .insertElement => true
  | .shuffleVector => true
  | .extractValue => true
  | .insertValue => true
  | .alloca => true
  | .atomicCmpXchg => true
  | .atomicRMW => true
  | .fence => false
  | .getElementPtr => true
  | .load => true
  | .store => false
  | .addrSpaceCast => true
  | .bitcast => true
  | .fpext => true
  | .fptosi => true
  | .fptoui => true
  | .fptrunc => true
  | .inttoptr => true
  | .ptrtoint => true
  | .sext => true
  | .sitofp => true
  | .trunc => true
  | .uitofp => true
  | .zext => true
  | .call _ => true
  | .fcmp => true
  | .icmp => true
  | .landingPad => true
  | .phi => true
  | .select => true
  | .vaarg => true
  | .unknown => false

/-- The loop body of `addOperandsToGen`: skip operands that are
`Constant`s or `BasicBlock`s, insert everything else. -/
def addOperandsToGen : List V → VSet → VSet
  | [], g => g
  | V.c _ :: t, g => addOperandsToGen t g
  | V.lbl _ :: t, g => addOperandsToGen t g
  | V.r n :: t, g => addOperandsToGen t (svInsert g (V.r n))

/-- Visiting one instruction: `addOperandsToGen` into `GenSets[&I]` and/or
`addResultToKill` (`KillSets[&I].insert(&I)`), as dictated by the kind's
`visit` method. -/
def visitInstr (s : St) (I : Instr) : St :=
  let s :=
    if gensOperands I.kind then
      { s with
        GenSets := mset s.GenSets I.id
          (addOperandsToGen I.operands ((mlook s.GenSets I.id).getD [])) }
    else s
  if killsResult I.kind then
    { s with
      KillSets := mset s.KillSets I.id
        (svInsert ((mlook s.KillSets I.id).getD []) (V.r I.id)) }
  else s

/-- The instructions of a function in visiting order (blocks in function
order, instructions in block order), as traversed by `InstVisitor::visit`. -/
def allInstrs (F : Fn) : List Instr :=
  F.blocks.foldr (fun B acc => B.instrs ++ acc) []

/-- Visit a list of instructions in order. -/
def visitList : List Instr → St → St
  | [], s => s
  | I :: t, s => visitList t (visitInstr s I)

/-- `Visitor.visit(F)`: visit every instruction of the function once. -/
def visitF (F : Fn) (s : St) : St :=
  visitList (allInstrs F) s

/-! ## The fixpoint engine (`LiveVariablesAnalysis`) -/

/-- `setUnion`: copy the left set, then insert the right set's elements in
order. -/
def unionGo : List V → VSet → VSet
  | [], acc => acc
  | v :: t, acc => unionGo t (svInsert acc v)

def setUnion (lhs rhs : VSet) : VSet := unionGo rhs lhs

/-- The removal loop of `flow`: `Out.remove(V)` for every `V` in the kill
set. -/
def removeAll : List V → VSet → VSet
  | [], acc => acc
  | v :: t, acc => removeAll t (svRemove acc v)

/-- `flow(I, In, Out)`: `Out = setUnion(In, Gen)` and then every kill
element is removed — gen is unioned first, kill is removed afterwards. -/
def flow (g k IN : VSet) : VSet := removeAll k (setUnion IN g)

/-- Find a block by id. -/
def blockOf (F : Fn) (b : Nat) : Option Block :=
  F.blocks.find? (fun B => B.id = b)

/-- `&Succ->getInstList().front()`: the first instruction of a block.  The
source asserts the block is well formed; a missing block or an empty block
yields `none` here and is skipped (excluded by well-formedness). -/
def firstInstr (F : Fn) (b : Nat) : Option Instr :=
  (blockOf F b).bind (fun B => B.instrs.head?)

/-- The out set a successor block exposes to `computeOutSets`: the
`OutSets` entry of its first instruction, or `none` when
`OutSets.count(I) == 0` (or when the successor is malformed, which the
source asserts against). -/
def succContrib (F : Fn) (s : St) (sb : Nat) : Option VSet :=
  match firstInstr F sb with
  | none => none
  | some I => mlook s.OutSets I.id

/-- The successor loop of `computeOutSets`: for each successor (in
`succ_begin` order), skip it when it exposes no out set, otherwise
insert every element of that out set into `newIn`. -/
def boundaryGo (F : Fn) (s : St) : List Nat → VSet → VSet
  | [], acc => acc
  | sb :: t, acc =>
      boundaryGo F s t
        (match succContrib F s sb with
         | none => acc
         | some o => setUnion acc o)

/-- The `newIn` set computed at the head of `computeOutSets`. -/
def boundary (F : Fn) (s : St) (B : Block) : VSet :=
  boundaryGo F s B.succs []

/-- The backward sweep of `computeOutSets`: walk the instructions in
reverse order, store `flow(I, *In, OutSets[I])` and thread the freshly
written out set as the next instruction's input. -/
def sweepGo (s : St) (IN : VSet) : List Instr → St
  | [] => s
  | I :: t =>
      let o := flow (getGen s I.id) (getKill s I.id) IN
      sweepGo { s with OutSets := mset s.OutSets I.id o } o t

/-- `computeOutSets(BB)`: recompute the block's boundary `newIn`; when an
`InSets` entry exists and equals `newIn` (the order-sensitive
`SetVector::operator==`), report no change; otherwise store `newIn`,
sweep the block backwards, and report a change. -/
def computeOutSets (F : Fn) (s : St) (B : Block) : St × Bool :=
  let newIn := boundary F s B
  match mlook s.InSets B.id with
  | some old =>
      if old = newIn then (s, false)
      else
        (sweepGo { s with InSets := mset s.InSets B.id newIn } newIn B.instrs.reverse, true)
  | none =>
      (sweepGo { s with InSets := mset s.InSets B.id newIn } newIn B.instrs.reverse, true)

/-- One full pass of the driver: `computeOutSets` on every block in
function order, or-ing the change flags. -/
def passGo (F : Fn) : List Block → St → Bool → St × Bool
  | [], s, ch => (s, ch)
  | B :: t, s, ch =>
      let p := computeOutSets F s B
      passGo F t p.1 (ch || p.2)

def passBlocks (F : Fn) (s : St) : St × Bool :=
  passGo F F.blocks s false

/-- The `while (Running)` driver with explicit fuel: run full passes until
one reports no change; `none` when the fuel runs out first. -/
def loop (F : Fn) : Nat → St → Option St
  | 0, _ => none
  | fuel + 1, s =>
      let p := passBlocks F s
      if p.2 then loop F fuel p.1 else some p.1

/-- `runOnFunction(F)`: visit the function to build the gen/kill sets,
then iterate to the fixpoint, all on top of whatever state the pass
object already holds. -/
def runOnFunction (F : Fn) (fuel : Nat) (s : St) : Option St :=
  loop F fuel (visitF F s)

/-- The state after `n` full passes of the driver, starting from a fresh
pass object. -/
def iterSt (F : Fn) : Nat → St
  | 0 => visitF F st0
  | n + 1 => (passBlocks F (iterSt F n)).1

/-! ## Well-formedness -/

/-- The ids of a function's blocks. -/
def blockIds (F : Fn) : List Nat := F.blocks.map Block.id

/-- A well-formed input function: every block is non-empty (it has a
terminator), block ids and instruction ids are unique identities, and
every successor reference resolves to a block of the function. -/
def wf (F : Fn) : Prop :=
  (∀ B ∈ F.blocks, B.instrs ≠ []) ∧
  ((allInstrs F).map Instr.id).Nodup ∧
  (∀ B ∈ F.blocks, (B.instrs.map Instr.id).Nodup) ∧
  (∀ B ∈ F.blocks, ∀ B2 ∈ F.blocks, ∀ I ∈ B.instrs, ∀ I2 ∈ B2.instrs,
      I.id = I2.id → B = B2 ∧ I = I2) ∧
  (∀ B ∈ F.blocks, ∀ B2 ∈ F.blocks, B.id = B2.id → B = B2) ∧
  (∀ B ∈ F.blocks, ∀ sb ∈ B.succs, ∃ B2 ∈ F.blocks, B2.id = sb)

instance (F : Fn) : Decidable (wf F) := by
  unfold wf; infer_instance

/-! ## Basic lemmas about the set and map operations -/

theorem mem_svInsert {s : VSet} {v x : V} : x ∈ svInsert s v ↔ x ∈ s ∨ x = v := by
  unfold svInsert
  by_cases h : v ∈ s
  · simp only [if_pos h]
    constructor
    · exact Or.inl
    · rintro (hx | rfl)
      · exact hx
      · exact h
  · simp [if_neg h, List.mem_append]

theorem mem_unionGo {l : List V} {acc : VSet} {x : V} :
    x ∈ unionGo l acc ↔ x ∈ acc ∨ x ∈ l := by
  induction l generalizing acc with
  | nil => simp [unionGo]
  | cons v t ih =>
      simp only [unionGo, ih, mem_svInsert, List.mem_cons]
      tauto

theorem mem_setUnion {a b : VSet} {x : V} : x ∈ setUnion a b ↔ x ∈ a ∨ x ∈ b := by
  unfold setUnion; exact mem_unionGo

theorem mem_svRemove {s : VSet} {v x : V} : x ∈ svRemove s v ↔ x ∈ s ∧ x ≠ v := by
  unfold svRemove
  simp [List.mem_filter]

theorem mem_removeAll {k : List V} {acc : VSet} {x : V} :
    x ∈ removeAll k acc ↔ x ∈ acc ∧ x ∉ k := by
  induction k generalizing acc with
  | nil => simp [removeAll]
  | cons v t ih =>
      simp only [removeAll, ih, mem_svRemove, List.mem_cons]
      tauto

theorem mem_flow {g k IN : VSet} {x : V} :
    x ∈ flow g k IN ↔ (x ∈ IN ∨ x ∈ g) ∧ x ∉ k := by
  unfold flow
  simp [mem_removeAll, mem_setUnion]

theorem mlook_mset_self (m : MapV) (k : Nat) (v : VSet) :
    mlook (mset m k v) k = some v := by
  induction m with
  | nil => simp [mset, mlook]
  | cons p t ih =>
      obtain ⟨a, w⟩ := p
      by_cases h : a = k
      · simp [mset, mlook, h]
      · simp [mset, mlook, h, ih]

theorem mlook_mset_ne (m : MapV) (k : Nat) (v : VSet) {j : Nat} (h : j ≠ k) :
    mlook (mset m k v) j = mlook m j := by
  have hkj : ¬ (k = j) := fun hh => h hh.symm
  induction m with
  | nil => simp [mset, mlook, hkj]
  | cons p t ih =>
      obtain ⟨a, w⟩ := p
      by_cases ha : a = k
      · subst ha
        simp [mset, mlook, hkj]
      · simp only [mset, if_neg ha, mlook]
        by_cases hj : a = j <;> simp [hj, ih]

/-! ## Frame lemmas: what each operation touches -/

theorem sweepGo_GenSets (l : List Instr) (s : St) (IN : VSet) :
    (sweepGo s IN l).GenSets = s.GenSets := by
  induction l generalizing s IN with
  | nil => rfl
  | cons I t ih => simp [sweepGo, ih]

theorem sweepGo_KillSets (l : List Instr) (s : St) (IN : VSet) :
    (sweepGo s IN l).KillSets = s.KillSets := by
  induction l generalizing s IN with
  | nil => rfl
  | cons I t ih => simp [sweepGo, ih]

theorem sweepGo_InSets (l : List Instr) (s : St) (IN : VSet) :
    (sweepGo s IN l).InSets = s.InSets := by
  induction l generalizing s IN with
  | nil => rfl
  | cons I t ih => simp [sweepGo, ih]

theorem sweepGo_OutSets_not_mem (l : List Instr) (s : St) (IN : VSet) {i : Nat}
    (h : i ∉ l.map Instr.id) :
    mlook (sweepGo s IN l).OutSets i = mlook s.OutSets i := by
  induction l generalizing s IN with
  | nil => rfl
  | cons I t ih =>
      simp only [List.map_cons, List.mem_cons, not_or] at h
      simp only [sweepGo]
      rw [ih _ _ h.2]
      exact mlook_mset_ne _ _ _ h.1

/-- The out sets written by one backward sweep through `l` with boundary
input `IN`, as a pure recurrence (the threading of `flow` outputs). -/
def sweepOuts (s : St) : List Instr → VSet → List (Nat × VSet)
  | [], _ => []
  | I :: t, IN =>
      let o := flow (getGen s I.id) (getKill s I.id) IN
      (I.id, o) :: sweepOuts s t o

theorem sweepOuts_congr {s t : St} (hg : s.GenSets = t.GenSets)
    (hk : s.KillSets = t.KillSets) (l : List Instr) (IN : VSet) :
    sweepOuts s l IN = sweepOuts t l IN := by
  induction l generalizing IN with
  | nil => rfl
  | cons I u ih => simp [sweepOuts, getGen, getKill, hg, hk, ih]

theorem sweepOuts_setOut (s : St) (m : MapV) (l : List Instr) (IN : VSet) :
    sweepOuts { s with OutSets := m } l IN = sweepOuts s l IN :=
  @sweepOuts_congr { s with OutSets := m } s rfl rfl l IN

theorem sweepOuts_setIn (s : St) (m : MapV) (l : List Instr) (IN : VSet) :
    sweepOuts { s with InSets := m } l IN = sweepOuts s l IN :=
  @sweepOuts_congr { s with InSets := m } s rfl rfl l IN

theorem sweepGo_OutSets_mem (l : List Instr) (s : St) (IN : VSet)
    (hnd : (l.map Instr.id).Nodup) {i : Nat} (h : i ∈ l.map Instr.id) :
    mlook (sweepGo s IN l).OutSets i = mlook (sweepOuts s l IN) i := by
  induction l generalizing s IN with
  | nil => cases h
  | cons I t ih =>
      simp only [List.map_cons, List.nodup_cons] at hnd
      simp only [List.map_cons, List.mem_cons] at h
      simp only [sweepGo, sweepOuts]
      rcases h with h | h
      · subst h
        rw [sweepGo_OutSets_not_mem _ _ _ hnd.1]
        simp [mlook, mlook_mset_self]
      · have hne : i ≠ I.id := fun hh => hnd.1 (hh ▸ h)
        have hne2 : ¬ (I.id = i) := fun hh => hne hh.symm
        rw [ih _ _ hnd.2 h, sweepOuts_setOut]
        simp [mlook, hne2]

/-! ## Monotonicity lemmas (element-wise subset order) -/

/-- Pointwise growth of a map: every entry persists and only gains
elements. -/
def mapLe (m m2 : MapV) : Prop :=
  ∀ k v, mlook m k = some v → ∃ w, mlook m2 k = some w ∧ v ⊆ w

theorem mapLe_refl (m : MapV) : mapLe m m :=
  fun _ v h => ⟨v, h, fun _ hx => hx⟩

theorem mapLe_trans {a b c : MapV} (h1 : mapLe a b) (h2 : mapLe b c) : mapLe a c := by
  intro k v hv
  obtain ⟨w, hw, hvw⟩ := h1 k v hv
  obtain ⟨u, hu, hwu⟩ := h2 k w hw
  exact ⟨u, hu, fun x hx => hwu (hvw hx)⟩

theorem setUnion_subsetL {a b a2 b2 : VSet} (ha : a ⊆ a2) (hb : b ⊆ b2) :
    setUnion a b ⊆ setUnion a2 b2 := by
  intro x hx
  rw [mem_setUnion] at hx ⊢
  rcases hx with hx | hx
  · exact Or.inl (ha hx)
  · exact Or.inr (hb hx)

theorem flow_mono {g k IN IN2 : VSet} (h : IN ⊆ IN2) : flow g k IN ⊆ flow g k IN2 := by
  intro x hx
  rw [mem_flow] at hx ⊢
  rcases hx with ⟨hx1, hx2⟩
  refine ⟨?_, hx2⟩
  rcases hx1 with hx1 | hx1
  · exact Or.inl (h hx1)
  · exact Or.inr hx1

theorem sweepOuts_mono (s : St) (l : List Instr) {IN IN2 : VSet} (h : IN ⊆ IN2) :
    ∀ i o, mlook (sweepOuts s l IN) i = some o →
      ∃ w, mlook (sweepOuts s l IN2) i = some w ∧ o ⊆ w := by
  induction l generalizing IN IN2 with
  | nil => intro i o ho; cases ho
  | cons I t ih =>
      intro i o ho
      simp only [sweepOuts, mlook] at ho ⊢
      by_cases hi : I.id = i
      · simp only [if_pos hi] at ho ⊢
        cases ho
        exact ⟨_, rfl, flow_mono h⟩
      · simp only [if_neg hi] at ho ⊢
        exact ih (flow_mono h) i o ho

theorem succContrib_mono {F : Fn} {s t : St} (h : mapLe s.OutSets t.OutSets)
    (sb : Nat) {o : VSet} (ho : succContrib F s sb = some o) :
    ∃ w, succContrib F t sb = some w ∧ o ⊆ w := by
  unfold succContrib at ho ⊢
  cases hfi : firstInstr F sb with
  | none => rw [hfi] at ho; cases ho
  | some I => rw [hfi] at ho; exact h _ _ ho

theorem boundaryGo_mono {F : Fn} {s t : St} (h : mapLe s.OutSets t.OutSets) :
    ∀ (l : List Nat) {acc acc2 : VSet}, acc ⊆ acc2 →
      boundaryGo F s l acc ⊆ boundaryGo F t l acc2 := by
  intro l
  induction l with
  | nil => intro acc acc2 hacc; exact hacc
  | cons sb u ih =>
      intro acc acc2 hacc
      simp only [boundaryGo]
      cases ho : succContrib F s sb with
      | none =>
          cases ho2 : succContrib F t sb with
          | none => exact ih hacc
          | some w =>
              refine ih (fun x hx => ?_)
              rw [mem_setUnion]
              exact Or.inl (hacc hx)
      | some o =>
          obtain ⟨w, hw, how⟩ := succContrib_mono h sb ho
          rw [hw]
          exact ih (setUnion_subsetL hacc how)

theorem boundary_mono {F : Fn} {s t : St} (h : mapLe s.OutSets t.OutSets) (B : Block) :
    boundary F s B ⊆ boundary F t B :=
  boundaryGo_mono h B.succs (fun _ hx => hx)

/-! ## Case analysis and frame lemmas for `computeOutSets` -/

theorem computeOutSets_none {F : Fn} {s : St} {B : Block}
    (h : mlook s.InSets B.id = none) :
    computeOutSets F s B =
      (sweepGo { s with InSets := mset s.InSets B.id (boundary F s B) } (boundary F s B)
        B.instrs.reverse, true) := by
  unfold computeOutSets
  rw [h]

theorem computeOutSets_some_ne {F : Fn} {s : St} {B : Block} {old : VSet}
    (h : mlook s.InSets B.id = some old) (he : old ≠ boundary F s B) :
    computeOutSets F s B =
      (sweepGo { s with InSets := mset s.InSets B.id (boundary F s B) } (boundary F s B)
        B.instrs.reverse, true) := by
  unfold computeOutSets
  rw [h]
  simp [he]

theorem computeOutSets_some_eq {F : Fn} {s : St} {B : Block}
    (h : mlook s.InSets B.id = some (boundary F s B)) :
    computeOutSets F s B = (s, false) := by
  unfold computeOutSets
  rw [h]
  simp

theorem computeOutSets_cases (F : Fn) (s : St) (B : Block) :
    (mlook s.InSets B.id = some (boundary F s B) ∧ computeOutSets F s B = (s, false)) ∨
    computeOutSets F s B =
      (sweepGo { s with InSets := mset s.InSets B.id (boundary F s B) } (boundary F s B)
        B.instrs.reverse, true) := by
  by_cases hmain : mlook s.InSets B.id = some (boundary F s B)
  · exact Or.inl ⟨hmain, computeOutSets_some_eq hmain⟩
  · refine Or.inr ?_
    cases h : mlook s.InSets B.id with
    | none => exact computeOutSets_none h
    | some old =>
        refine computeOutSets_some_ne h (fun he => hmain ?_)
        rw [h, he]

theorem computeOutSets_GenSets (F : Fn) (s : St) (B : Block) :
    ((computeOutSets F s B).1).GenSets = s.GenSets := by
  rcases computeOutSets_cases F s B with ⟨_, h⟩ | h <;> rw [h]
  exact (sweepGo_GenSets _ _ _)

theorem computeOutSets_KillSets (F : Fn) (s : St) (B : Block) :
    ((computeOutSets F s B).1).KillSets = s.KillSets := by
  rcases computeOutSets_cases F s B with ⟨_, h⟩ | h <;> rw [h]
  exact (sweepGo_KillSets _ _ _)

theorem computeOutSets_InSets_ne (F : Fn) (s : St) (B : Block) {b : Nat} (h : b ≠ B.id) :
    mlook ((computeOutSets F s B).1).InSets b = mlook s.InSets b := by
  rcases computeOutSets_cases F s B with ⟨_, hc⟩ | hc <;> rw [hc]
  rw [sweepGo_InSets]
  exact mlook_mset_ne _ _ _ h

theorem computeOutSets_OutSets_ne (F : Fn) (s : St) (B : Block) {i : Nat}
    (h : i ∉ B.instrs.map Instr.id) :
    mlook ((computeOutSets F s B).1).OutSets i = mlook s.OutSets i := by
  rcases computeOutSets_cases F s B with ⟨_, hc⟩ | hc <;> rw [hc]
  have h2 : i ∉ B.instrs.reverse.map Instr.id := by
    rw [List.map_reverse, List.mem_reverse]
    exact fun hh => h hh
  exact sweepGo_OutSets_not_mem _ _ _ h2

theorem computeOutSets_skip (F : Fn) (s : St) (B : Block)
    (h : mlook s.InSets B.id = some (boundary F s B)) :
    computeOutSets F s B = (s, false) := by
  unfold computeOutSets
  rw [h]
  simp

/-! ## Every stored out set is a `flow` image of its instruction -/

/-- Invariant: every `OutSets` entry stored by the engine is the image of
the transfer function `flow` applied to that instruction's gen and kill
sets and some input. -/
def outsAreFlows (s : St) : Prop :=
  ∀ i o, mlook s.OutSets i = some o → ∃ IN, o = flow (getGen s i) (getKill s i) IN

theorem sweepGo_outsAreFlows (l : List Instr) (s : St) (IN : VSet)
    (h : outsAreFlows s) : outsAreFlows (sweepGo s IN l) := by
  induction l generalizing s IN with
  | nil => exact h
  | cons I t ih =>
      simp only [sweepGo]
      refine ih _ _ (fun i o ho => ?_)
      by_cases hi : i = I.id
      · subst hi
        rw [mlook_mset_self] at ho
        cases ho
        exact ⟨IN, rfl⟩
      · rw [mlook_mset_ne _ _ _ hi] at ho
        exact h i o ho

theorem computeOutSets_outsAreFlows (F : Fn) (s : St) (B : Block)
    (h : outsAreFlows s) : outsAreFlows ((computeOutSets F s B).1) := by
  rcases computeOutSets_cases F s B with ⟨_, hc⟩ | hc <;> rw [hc]
  · exact h
  · exact sweepGo_outsAreFlows _ _ _ h

theorem passGo_outsAreFlows (F : Fn) (l : List Block) (s : St) (ch : Bool)
    (h : outsAreFlows s) : outsAreFlows ((passGo F l s ch).1) := by
  induction l generalizing s ch with
  | nil => exact h
  | cons B t ih =>
      simp only [passGo]
      exact ih _ _ (computeOutSets_outsAreFlows F s B h)

theorem visitList_OutSets (l : List Instr) (s : St) :
    (visitList l s).OutSets = s.OutSets := by
  induction l generalizing s with
  | nil => rfl
  | cons I t ih =>
      simp only [visitList, visitInstr]
      rw [ih]
      by_cases hg : gensOperands I.kind <;> by_cases hk : killsResult I.kind <;>
        simp [hg, hk]

theorem visitList_InSets (l : List Instr) (s : St) :
    (visitList l s).InSets = s.InSets := by
  induction l generalizing s with
  | nil => rfl
  | cons I t ih =>
      simp only [visitList, visitInstr]
      rw [ih]
      by_cases hg : gensOperands I.kind <;> by_cases hk : killsResult I.kind <;>
        simp [hg, hk]

theorem iterSt_outsAreFlows (F : Fn) (n : Nat) : outsAreFlows (iterSt F n) := by
  induction n with
  | zero =>
      intro i o ho
      rw [show (iterSt F 0).OutSets = ([] : MapV) from visitList_OutSets _ _] at ho
      cases ho
  | succ n ih => exact passGo_outsAreFlows F F.blocks _ _ ih

/-! ## The engine invariant and monotone growth of the stored sets -/

theorem sweepOuts_keys (s : St) (l : List Instr) (IN : VSet) {i : Nat} {o : VSet}
    (h : mlook (sweepOuts s l IN) i = some o) : i ∈ l.map Instr.id := by
  induction l generalizing IN with
  | nil => cases h
  | cons I t ih =>
      simp only [sweepOuts, mlook] at h
      by_cases hi : I.id = i
      · simp [List.map_cons, hi]
      · simp only [if_neg hi] at h
        simp only [List.map_cons, List.mem_cons]
        exact Or.inr (ih _ h)

theorem sweepOuts_isSome (s : St) (l : List Instr) (IN : VSet) {i : Nat}
    (h : i ∈ l.map Instr.id) : ∃ o, mlook (sweepOuts s l IN) i = some o := by
  induction l generalizing IN with
  | nil => cases h
  | cons I t ih =>
      simp only [List.map_cons, List.mem_cons] at h
      simp only [sweepOuts, mlook]
      by_cases hi : I.id = i
      · exact ⟨_, if_pos hi⟩
      · rcases h with h | h
        · exact absurd h.symm hi
        · rw [if_neg hi]
          exact ih _ h

/-- Pointwise growth of the engine's stored maps. -/
def stLe (s t : St) : Prop := mapLe s.InSets t.InSets ∧ mapLe s.OutSets t.OutSets

theorem stLe_refl (s : St) : stLe s s := ⟨mapLe_refl _, mapLe_refl _⟩

theorem stLe_trans {a b c : St} (h1 : stLe a b) (h2 : stLe b c) : stLe a c :=
  ⟨mapLe_trans h1.1 h2.1, mapLe_trans h1.2 h2.2⟩

/-- The invariant maintained by the engine between block recomputations:
every block with a stored live-in has exactly the out sets of the
backward sweep from that live-in, the stored live-in is below the current
boundary of the block, and blocks never swept have no stored out sets. -/
structure EngInv (F : Fn) (s : St) : Prop where
  consist : ∀ B ∈ F.blocks, ∀ v, mlook s.InSets B.id = some v →
    ∀ i o, mlook (sweepOuts s B.instrs.reverse v) i = some o → mlook s.OutSets i = some o
  inBound : ∀ B ∈ F.blocks, ∀ v, mlook s.InSets B.id = some v → v ⊆ boundary F s B
  outNone : ∀ B ∈ F.blocks, mlook s.InSets B.id = none →
    ∀ I ∈ B.instrs, mlook s.OutSets I.id = none

theorem computeOutSets_mono (F : Fn) (s : St) (B : Block) (hwf : wf F)
    (hB : B ∈ F.blocks) (hInv : EngInv F s) :
    stLe s ((computeOutSets F s B).1) ∧ EngInv F ((computeOutSets F s B).1) := by
  obtain ⟨hne, hnd, hbnd, hii, hbi, hsc⟩ := hwf
  rcases computeOutSets_cases F s B with ⟨hin, hc⟩ | hc
  · rw [hc]
    exact ⟨stLe_refl s, hInv⟩
  · set nIn := boundary F s B with hnIn
    set t := (computeOutSets F s B).1 with ht
    have htt : t = sweepGo { s with InSets := mset s.InSets B.id nIn } nIn B.instrs.reverse := by
      rw [ht, hc]
    have hrevnd : (B.instrs.reverse.map Instr.id).Nodup := by
      rw [List.map_reverse]
      exact (List.nodup_reverse).mpr (hbnd B hB)
    -- gen/kill sets are untouched
    have hgen : t.GenSets = s.GenSets := by rw [htt, sweepGo_GenSets]
    have hkill : t.KillSets = s.KillSets := by rw [htt, sweepGo_KillSets]
    have hsw : ∀ l IN, sweepOuts t l IN = sweepOuts s l IN := fun l IN =>
      sweepOuts_congr hgen hkill l IN
    -- the in sets of t
    have hinB : mlook t.InSets B.id = some nIn := by
      rw [htt, sweepGo_InSets]
      exact mlook_mset_self _ _ _
    have hinNe : ∀ b, b ≠ B.id → mlook t.InSets b = mlook s.InSets b := by
      intro b hb
      rw [htt, sweepGo_InSets]
      exact mlook_mset_ne _ _ _ hb
    -- the out sets of t
    have houtMem : ∀ i, i ∈ B.instrs.reverse.map Instr.id →
        mlook t.OutSets i = mlook (sweepOuts s B.instrs.reverse nIn) i := by
      intro i hi
      rw [htt, sweepGo_OutSets_mem _ _ _ hrevnd hi, sweepOuts_setIn]
    have houtNe : ∀ i, i ∉ B.instrs.reverse.map Instr.id →
        mlook t.OutSets i = mlook s.OutSets i := by
      intro i hi
      rw [htt, sweepGo_OutSets_not_mem _ _ _ hi]
    have hmemrev : ∀ i, i ∈ B.instrs.reverse.map Instr.id ↔ i ∈ B.instrs.map Instr.id := by
      intro i
      rw [List.map_reverse, List.mem_reverse]
    -- growth of the out sets
    have houtLe : mapLe s.OutSets t.OutSets := by
      intro i o ho
      by_cases hi : i ∈ B.instrs.reverse.map Instr.id
      · -- the entry is rewritten by the sweep; it can only grow
        cases hv : mlook s.InSets B.id with
        | none =>
            obtain ⟨I, hI, hIid⟩ := List.mem_map.mp ((hmemrev i).mp hi)
            have hnone := hInv.outNone B hB hv I hI
            rw [hIid] at hnone
            rw [hnone] at ho
            cases ho
        | some v =>
            obtain ⟨o2, ho2⟩ := sweepOuts_isSome s B.instrs.reverse v hi
            have hoo : o = o2 := by
              have := hInv.consist B hB v hv i o2 ho2
              rw [this] at ho
              cases ho
              rfl
            have hvn : v ⊆ nIn := hInv.inBound B hB v hv
            obtain ⟨w, hw, h2w⟩ := sweepOuts_mono s B.instrs.reverse hvn i o2 ho2
            refine ⟨w, ?_, hoo ▸ h2w⟩
            rw [houtMem i hi, hw]
      · exact ⟨o, by rw [houtNe i hi]; exact ho, fun x hx => hx⟩
    have hinLe : mapLe s.InSets t.InSets := by
      intro b v hv
      by_cases hb : b = B.id
      · subst hb
        exact ⟨nIn, hinB, hInv.inBound B hB v hv⟩
      · exact ⟨v, by rw [hinNe b hb]; exact hv, fun x hx => hx⟩
    refine ⟨⟨hinLe, houtLe⟩, ?_, ?_, ?_⟩
    · -- consist
      intro B2 hB2 v hv i o ho
      rw [hsw] at ho
      by_cases hb : B2.id = B.id
      · have hBB : B2 = B := hbi B2 hB2 B hB hb
        subst hBB
        rw [hinB] at hv
        obtain rfl : nIn = v := Option.some.inj hv
        have hi : i ∈ B2.instrs.reverse.map Instr.id := sweepOuts_keys s _ _ ho
        rw [houtMem i hi]
        exact ho
      · have hv2 : mlook s.InSets B2.id = some v := by rw [← hinNe B2.id hb]; exact hv
        have hold := hInv.consist B2 hB2 v hv2 i o ho
        have hi2 : i ∈ B2.instrs.reverse.map Instr.id := sweepOuts_keys s _ _ ho
        have hi3 : i ∈ B2.instrs.map Instr.id := by
          rw [List.map_reverse] at hi2
          exact List.mem_reverse.mp hi2
        obtain ⟨I, hI, hIid⟩ := List.mem_map.mp hi3
        have hnotB : i ∉ B.instrs.reverse.map Instr.id := by
          intro hmem
          obtain ⟨I2, hI2, hI2id⟩ := List.mem_map.mp ((hmemrev i).mp hmem)
          have hsame := hii B hB B2 hB2 I2 hI2 I hI (by rw [hI2id, hIid])
          exact hb (congrArg Block.id hsame.1).symm
        rw [houtNe i hnotB]
        exact hold
    · -- inBound
      intro B2 hB2 v hv
      have hbm : ∀ B3, boundary F s B3 ⊆ boundary F t B3 := fun B3 =>
        boundary_mono houtLe B3
      by_cases hb : B2.id = B.id
      · have hBB : B2 = B := hbi B2 hB2 B hB hb
        subst hBB
        rw [hinB] at hv
        obtain rfl : nIn = v := Option.some.inj hv
        exact hbm B2
      · have hv2 : mlook s.InSets B2.id = some v := by rw [← hinNe B2.id hb]; exact hv
        exact fun x hx => hbm B2 (hInv.inBound B2 hB2 v hv2 hx)
    · -- outNone
      intro B2 hB2 hv I hI
      by_cases hb : B2.id = B.id
      · rw [hb, hinB] at hv
        cases hv
      · have hv2 : mlook s.InSets B2.id = none := by rw [← hinNe B2.id hb]; exact hv
        have hnotB : I.id ∉ B.instrs.reverse.map Instr.id := by
          intro hmem
          obtain ⟨I2, hI2, hI2id⟩ := List.mem_map.mp ((hmemrev I.id).mp hmem)
          have hsame := hii B hB B2 hB2 I2 hI2 I hI hI2id
          exact hb (congrArg Block.id hsame.1).symm
        rw [houtNe I.id hnotB]
        exact hInv.outNone B2 hB2 hv2 I hI

theorem passGo_mono (F : Fn) (hwf : wf F) :
    ∀ (l : List Block), (∀ B ∈ l, B ∈ F.blocks) → ∀ s ch, EngInv F s →
      stLe s ((passGo F l s ch).1) ∧ EngInv F ((passGo F l s ch).1) := by
  intro l
  induction l with
  | nil => intro _ s ch hInv; exact ⟨stLe_refl s, hInv⟩
  | cons B t ih =>
      intro hl s ch hInv
      simp only [passGo]
      have hB : B ∈ F.blocks := hl B (by simp)
      obtain ⟨h1, h2⟩ := computeOutSets_mono F s B hwf hB hInv
      obtain ⟨h3, h4⟩ := ih (fun B2 hB2 => hl B2 (by simp [hB2])) _ _ h2
      exact ⟨stLe_trans h1 h3, h4⟩

theorem passBlocks_mono (F : Fn) (hwf : wf F) (s : St) (hInv : EngInv F s) :
    stLe s ((passBlocks F s).1) ∧ EngInv F ((passBlocks F s).1) :=
  passGo_mono F hwf F.blocks (fun _ h => h) s false hInv

theorem iterSt_EngInv (F : Fn) (hwf : wf F) : ∀ n, EngInv F (iterSt F n) := by
  intro n
  induction n with
  | zero =>
      have hin : (iterSt F 0).InSets = ([] : MapV) := visitList_InSets _ _
      have hout : (iterSt F 0).OutSets = ([] : MapV) := visitList_OutSets _ _
      constructor
      · intro B hB v hv
        rw [hin] at hv
        cases hv
      · intro B hB v hv
        rw [hin] at hv
        cases hv
      · intro B hB hv I hI
        rw [hout]
        rfl
  | succ n ih => exact (passBlocks_mono F hwf _ ih).2

theorem iterSt_mono (F : Fn) (hwf : wf F) (n : Nat) :
    stLe (iterSt F n) (iterSt F (n + 1)) :=
  (passBlocks_mono F hwf _ (iterSt_EngInv F hwf n)).1

/-! ## Concrete input functions -/

/-- A straight-line function: `%a = add %x, %y; store %a, %p; ret void`
with no successors.  Values: `%x` = `r 10`, `%y` = `r 11`, `%p` = `r 12`,
`%a` = `r 1` (the add instruction itself); the store is id 2, the ret is
id 3; the block label is 0.  Note LLVM store operands are value first,
pointer second. -/
def B2c : Block :=
  ⟨0,
   [⟨1, Kind.binop, [V.r 10, V.r 11]⟩,
    ⟨2, Kind.store, [V.r 1, V.r 12]⟩,
    ⟨3, Kind.ret, []⟩], []⟩

def F2c : Fn := ⟨[B2c]⟩

/-- The state after running the pass on `F2c` (10 passes of fuel are
ample; the driver stabilises after 2). -/
def s2f : St := (runOnFunction F2c 10 st0).getD st0

/-- A loop block with a self-referential phi:
`loop: %m = phi [%v, %loop], [%m, %loop]; br label %loop` with
`%v` = `r 5` and `%m` = `r 1` (the phi itself), block label 0. -/
def Fphi : Fn :=
  ⟨[⟨0,
     [⟨1, Kind.phi, [V.r 5, V.lbl 0, V.r 1, V.lbl 0]⟩,
      ⟨2, Kind.branch, [V.lbl 0]⟩], [0]⟩]⟩

/-- The state after running the pass on `Fphi`. -/
def sphi : St := (runOnFunction Fphi 10 st0).getD st0

/-- A block with a void call: `call void @f(%x); ret void` where the
callee `@f` is a constant (`c 99`) and `%x` = `r 10`. -/
def Fv : Fn := ⟨[⟨7, [⟨30, Kind.call true, [V.r 10, V.c 99]⟩, ⟨31, Kind.ret, []⟩], []⟩]⟩

/-- A block whose first instruction has a kind the visitor does not
recognise (e.g. a `freeze %x`, which produces a value and reads `%x`). -/
def Fu : Fn := ⟨[⟨8, [⟨40, Kind.unknown, [V.r 10]⟩, ⟨41, Kind.ret, []⟩], []⟩]⟩

/-- A function analyzed first, to exhibit cross-run retention: one block
(label 100) holding a single `ret void` (id 50). -/
def Fa : Fn := ⟨[⟨100, [⟨50, Kind.ret, []⟩], []⟩]⟩

/-- The livelock function: three single-branch blocks `L1 → L2 → L3 → L1`
in a cycle (each `br %c, cycle-target, exit-target`), three exit blocks
`E1`, `E2`, `E3` whose adds read `%x`,`%y` in different operand orders,
and an entry block `E0`.  Block order (= sweep processing order) is
`E0, E3, L3, E1, E2, L1, L2`; blocks are labelled 0..6 in that order.
Values: `%x` = `r 10`, `%y` = `r 11`, `%c` = `r 12`. -/
def F6 : Fn :=
  ⟨[⟨0, [⟨20, Kind.branch, [V.lbl 1]⟩], [1]⟩,
    ⟨1, [⟨21, Kind.binop, [V.r 11, V.r 10]⟩, ⟨22, Kind.ret, [V.r 21]⟩], []⟩,
    ⟨2, [⟨23, Kind.branch, [V.r 12, V.lbl 5, V.lbl 1]⟩], [5, 1]⟩,
    ⟨3, [⟨24, Kind.binop, [V.r 10, V.r 11]⟩, ⟨25, Kind.ret, [V.r 24]⟩], []⟩,
    ⟨4, [⟨26, Kind.binop, [V.r 10, V.r 11]⟩, ⟨27, Kind.ret, [V.r 26]⟩], []⟩,
    ⟨5, [⟨28, Kind.branch, [V.r 12, V.lbl 6, V.lbl 3]⟩], [6, 3]⟩,
    ⟨6, [⟨29, Kind.branch, [V.r 12, V.lbl 2, V.lbl 4]⟩], [2, 4]⟩]⟩

/-! ## Definitions following the spec's words (for comparison) -/

/-- The transfer function exactly as the spec states it:
`transfer(I, In) = (In \ Kill(I)) ∪ Gen(I)`, kill removed first, gen
unioned afterwards. -/
def specTransfer (g k IN : VSet) : VSet := setUnion (removeAll k IN) g

/-- Modelled from the spec: whether an instruction kind is
"value-producing" (defines "exactly one Value ... itself").  Terminators
other than invoke, stores and fences define nothing; a call defines a
value exactly when it does not return void; `unknown` stands for a
value-producing unrecognised kind (e.g. `freeze`). -/
def valueProducing : Kind → Bool
  | .branch => false
  | .indirectBr => false
  | .invoke => true
  | .resume => false
  | .ret => false
  | .switch => false
  | .unreachable => false
  | .fence => false
  | .store => false
  | .call b => !b
  | .unknown => true
  | _ => true

/-- Modelled from the spec: the conservative classification rule of §4.1,
"generate all non-constant (non-label) operands". -/
def conservativeGen (I : Instr) : VSet := addOperandsToGen I.operands []

/-- Modelled from the spec: the conservative rule's kill side, "kill self
if value-producing". -/
def conservativeKill (I : Instr) : VSet :=
  if valueProducing I.kind then [V.r I.id] else []

/-! ## The classifier's per-instruction result -/

/-- The gen set the visitor computes for an instruction whose map entry
was previously absent. -/
def genOfInstr (I : Instr) : VSet :=
  if gensOperands I.kind then addOperandsToGen I.operands [] else []

/-- The kill set the visitor computes for an instruction whose map entry
was previously absent. -/
def killOfInstr (I : Instr) : VSet :=
  if killsResult I.kind then [V.r I.id] else []

theorem mem_addOperandsToGen (l : List V) (g : VSet) (x : V) :
    x ∈ addOperandsToGen l g ↔ x ∈ g ∨ (x ∈ l ∧ ∃ n, x = V.r n) := by
  induction l generalizing g with
  | nil => simp [addOperandsToGen]
  | cons v t ih =>
      cases v with
      | c m =>
          rw [addOperandsToGen, ih]
          simp only [List.mem_cons]
          constructor
          · rintro (h | ⟨h1, n, rfl⟩)
            · exact Or.inl h
            · exact Or.inr ⟨Or.inr h1, n, rfl⟩
          · rintro (h | ⟨h1 | h1, n, rfl⟩)
            · exact Or.inl h
            · cases h1
            · exact Or.inr ⟨h1, n, rfl⟩
      | lbl m =>
          rw [addOperandsToGen, ih]
          simp only [List.mem_cons]
          constructor
          · rintro (h | ⟨h1, n, rfl⟩)
            · exact Or.inl h
            · exact Or.inr ⟨Or.inr h1, n, rfl⟩
          · rintro (h | ⟨h1 | h1, n, rfl⟩)
            · exact Or.inl h
            · cases h1
            · exact Or.inr ⟨h1, n, rfl⟩
      | r m =>
          rw [addOperandsToGen, ih]
          simp only [mem_svInsert, List.mem_cons]
          constructor
          · rintro ((h | h) | ⟨h1, n, rfl⟩)
            · exact Or.inl h
            · exact Or.inr ⟨Or.inl h, m, h⟩
            · exact Or.inr ⟨Or.inr h1, n, rfl⟩
          · rintro (h | ⟨h1 | h1, hex⟩)
            · exact Or.inl (Or.inl h)
            · exact Or.inl (Or.inr h1)
            · exact Or.inr ⟨h1, hex⟩

theorem visitInstr_GenSets_ne (s : St) (I : Instr) {i : Nat} (h : i ≠ I.id) :
    mlook (visitInstr s I).GenSets i = mlook s.GenSets i := by
  unfold visitInstr
  by_cases hg : gensOperands I.kind <;> by_cases hk : killsResult I.kind <;>
    simp [hg, hk, mlook_mset_ne _ _ _ h]

theorem visitInstr_KillSets_ne (s : St) (I : Instr) {i : Nat} (h : i ≠ I.id) :
    mlook (visitInstr s I).KillSets i = mlook s.KillSets i := by
  unfold visitInstr
  by_cases hg : gensOperands I.kind <;> by_cases hk : killsResult I.kind <;>
    simp [hg, hk, mlook_mset_ne _ _ _ h]

theorem visitList_GenSets_ne (l : List Instr) (s : St) {i : Nat}
    (h : i ∉ l.map Instr.id) :
    mlook (visitList l s).GenSets i = mlook s.GenSets i := by
  induction l generalizing s with
  | nil => rfl
  | cons I t ih =>
      simp only [List.map_cons, List.mem_cons, not_or] at h
      simp only [visitList]
      rw [ih _ h.2, visitInstr_GenSets_ne s I h.1]

theorem visitList_KillSets_ne (l : List Instr) (s : St) {i : Nat}
    (h : i ∉ l.map Instr.id) :
    mlook (visitList l s).KillSets i = mlook s.KillSets i := by
  induction l generalizing s with
  | nil => rfl
  | cons I t ih =>
      simp only [List.map_cons, List.mem_cons, not_or] at h
      simp only [visitList]
      rw [ih _ h.2, visitInstr_KillSets_ne s I h.1]

theorem visitInstr_GenSets_self (s : St) (I : Instr) (h : mlook s.GenSets I.id = none) :
    mlook (visitInstr s I).GenSets I.id =
      if gensOperands I.kind then some (addOperandsToGen I.operands []) else none := by
  unfold visitInstr
  by_cases hg : gensOperands I.kind <;> by_cases hk : killsResult I.kind <;>
    simp [hg, hk, mlook_mset_self, h]

theorem visitInstr_KillSets_self (s : St) (I : Instr) (h : mlook s.KillSets I.id = none) :
    mlook (visitInstr s I).KillSets I.id =
      if killsResult I.kind then some [V.r I.id] else none := by
  unfold visitInstr
  by_cases hg : gensOperands I.kind <;> by_cases hk : killsResult I.kind <;>
    simp [hg, hk, mlook_mset_self, h, svInsert]

theorem visitList_classifier (l : List Instr) (s : St)
    (hnd : (l.map Instr.id).Nodup)
    (hfresh : ∀ I ∈ l, mlook s.GenSets I.id = none ∧ mlook s.KillSets I.id = none) :
    ∀ I ∈ l, getGen (visitList l s) I.id = genOfInstr I ∧
      getKill (visitList l s) I.id = killOfInstr I := by
  induction l generalizing s with
  | nil => intro I hI; cases hI
  | cons J t ih =>
      simp only [List.map_cons, List.nodup_cons] at hnd
      intro I hI
      simp only [visitList]
      rcases List.mem_cons.mp hI with rfl | hI2
      · have hJg : mlook (visitInstr s I).GenSets I.id =
            if gensOperands I.kind then some (addOperandsToGen I.operands []) else none :=
          visitInstr_GenSets_self s I (hfresh I hI).1
        have hJk : mlook (visitInstr s I).KillSets I.id =
            if killsResult I.kind then some [V.r I.id] else none :=
          visitInstr_KillSets_self s I (hfresh I hI).2
        constructor
        · rw [getGen, visitList_GenSets_ne t _ hnd.1, hJg, genOfInstr]
          by_cases hg : gensOperands I.kind <;> simp [hg]
        · rw [getKill, visitList_KillSets_ne t _ hnd.1, hJk, killOfInstr]
          by_cases hk : killsResult I.kind <;> simp [hk]
      · refine ih _ hnd.2 (fun I2 hI2m => ?_) I hI2
        have hne : I2.id ≠ J.id := by
          intro he
          exact hnd.1 (he ▸ List.mem_map.mpr ⟨I2, hI2m, rfl⟩)
        rw [visitInstr_GenSets_ne s J hne, visitInstr_KillSets_ne s J hne]
        exact hfresh I2 (List.mem_cons_of_mem J hI2m)

theorem mem_foldr_append {L : List Block} {I : Instr} :
    I ∈ L.foldr (fun B acc => B.instrs ++ acc) [] ↔ ∃ B ∈ L, I ∈ B.instrs := by
  induction L with
  | nil => simp
  | cons B t ih =>
      simp only [List.foldr_cons, List.mem_append, ih, List.mem_cons]
      constructor
      · rintro (h | ⟨B2, hB2, hI⟩)
        · exact ⟨B, Or.inl rfl, h⟩
        · exact ⟨B2, Or.inr hB2, hI⟩
      · rintro ⟨B2, rfl | hB2, hI⟩
        · exact Or.inl hI
        · exact Or.inr ⟨B2, hB2, hI⟩

theorem mem_allInstrs {F : Fn} {I : Instr} :
    I ∈ allInstrs F ↔ ∃ B ∈ F.blocks, I ∈ B.instrs := mem_foldr_append

/-- After `Visitor.visit(F)` on a fresh pass object, every instruction's
stored gen and kill sets are exactly what its own `visit` method put
there. -/
theorem visitF_classifier (F : Fn) (hwf : wf F) :
    ∀ B ∈ F.blocks, ∀ I ∈ B.instrs,
      getGen (visitF F st0) I.id = genOfInstr I ∧
      getKill (visitF F st0) I.id = killOfInstr I := by
  intro B hB I hI
  exact visitList_classifier (allInstrs F) st0 hwf.2.1
    (fun _ _ => ⟨rfl, rfl⟩) I (mem_allInstrs.mpr ⟨B, hB, hI⟩)

/-! ## Predicates used by claim statements -/

/-- Whether a value is a register-like value (not a compile-time constant,
not a basic-block label). -/
def isReg : V → Bool
  | V.r _ => true
  | _ => false

theorem addOperandsToGen_reg (l : List V) (g : VSet)
    (h : ∀ x ∈ g, isReg x = true) :
    ∀ x ∈ addOperandsToGen l g, isReg x = true := by
  intro x hx
  rw [mem_addOperandsToGen] at hx
  rcases hx with hx | ⟨_, n, rfl⟩
  · exact h x hx
  · rfl

theorem visitInstr_GenSets_self2 (s : St) (I : Instr) :
    mlook (visitInstr s I).GenSets I.id = mlook s.GenSets I.id ∨
    mlook (visitInstr s I).GenSets I.id =
      some (addOperandsToGen I.operands ((mlook s.GenSets I.id).getD [])) := by
  by_cases hg : gensOperands I.kind
  · refine Or.inr ?_
    unfold visitInstr
    by_cases hk : killsResult I.kind <;> simp [hg, hk, mlook_mset_self]
  · refine Or.inl ?_
    unfold visitInstr
    by_cases hk : killsResult I.kind <;> simp [hg, hk]

theorem visitInstr_gens_reg (s : St) (I : Instr)
    (h : ∀ i o, mlook s.GenSets i = some o → ∀ x ∈ o, isReg x = true) :
    ∀ i o, mlook (visitInstr s I).GenSets i = some o → ∀ x ∈ o, isReg x = true := by
  have hbase : ∀ x ∈ (mlook s.GenSets I.id).getD [], isReg x = true := by
    cases hgo : mlook s.GenSets I.id with
    | none => intro x hx; cases hx
    | some o2 => exact h I.id o2 hgo
  intro i o ho
  by_cases hi : i = I.id
  · subst hi
    rcases visitInstr_GenSets_self2 s I with hs | hs
    · rw [hs] at ho
      exact h _ o ho
    · rw [hs] at ho
      cases ho
      exact addOperandsToGen_reg _ _ hbase
  · rw [visitInstr_GenSets_ne s I hi] at ho
    exact h i o ho

theorem visitList_gens_reg (l : List Instr) (s : St)
    (h : ∀ i o, mlook s.GenSets i = some o → ∀ x ∈ o, isReg x = true) :
    ∀ i o, mlook (visitList l s).GenSets i = some o → ∀ x ∈ o, isReg x = true := by
  induction l generalizing s with
  | nil => exact h
  | cons I t ih => exact ih _ (visitInstr_gens_reg s I h)

/-! ## Claim C1 -/

/-- C1, counterexample: the claim states the transfer is
`(In \ Kill) ∪ Gen` with Gen winning ties, so that `LiveOut ⊇ Gen` at
convergence.  For the self-referential phi of `Fphi` (gen = `{%v, %m}`,
kill = `{%m}`), the code's `flow` on the empty input yields `{%v}`,
not the claimed `{%v, %m}`; at convergence `OutSets[phi] = {%v}` does not
contain the gen element `%m`. -/
theorem C1_counterexample :
    getGen (visitF Fphi st0) 1 = [V.r 5, V.r 1] ∧
    getKill (visitF Fphi st0) 1 = [V.r 1] ∧
    flow [V.r 5, V.r 1] [V.r 1] [] = [V.r 5] ∧
    specTransfer [V.r 5, V.r 1] [V.r 1] [] = [V.r 5, V.r 1] ∧
    ([V.r 5] : VSet) ≠ [V.r 5, V.r 1] ∧
    (runOnFunction Fphi 10 st0).isSome = true ∧
    mlook sphi.OutSets 1 = some [V.r 5] ∧
    V.r 1 ∈ getGen (visitF Fphi st0) 1 ∧
    V.r 1 ∉ ([V.r 5] : VSet) := by
  decide

/-- C1, amended: the transfer applied during a block sweep is
`(In ∪ Gen(I)) \ Kill(I)` — gen is unioned first and kill removed
afterwards, so Kill wins ties.  Consequently every stored out set (at any
pass of the driver) is disjoint from its instruction's kill set and
contains `Gen(I) \ Kill(I)` (not all of `Gen(I)`). -/
theorem C1_amended_theorem (F : Fn) (n : Nat) :
    (∀ g k IN x, x ∈ flow g k IN ↔ ((x ∈ IN ∨ x ∈ g) ∧ x ∉ k)) ∧
    (∀ i o, mlook (iterSt F n).OutSets i = some o →
      (∀ x ∈ getKill (iterSt F n) i, x ∉ o) ∧
      (∀ x ∈ getGen (iterSt F n) i, x ∉ getKill (iterSt F n) i → x ∈ o)) := by
  refine ⟨fun g k IN x => mem_flow, fun i o ho => ?_⟩
  obtain ⟨IN, hIN⟩ := iterSt_outsAreFlows F n i o ho
  subst hIN
  constructor
  · intro x hk hmem
    rw [mem_flow] at hmem
    exact hmem.2 hk
  · intro x hg hk
    rw [mem_flow]
    exact ⟨Or.inr hg, hk⟩

/-- C1 witness: the amended theorem applied to the concrete straight-line
function `F2c` after two passes, at the add instruction (id 1). -/
theorem C1_amended_witness :
    mlook (iterSt F2c 2).OutSets 1 = some [V.r 12, V.r 10, V.r 11] ∧
    V.r 1 ∈ getKill (iterSt F2c 2) 1 ∧
    V.r 1 ∉ ([V.r 12, V.r 10, V.r 11] : VSet) ∧
    V.r 10 ∈ ([V.r 12, V.r 10, V.r 11] : VSet) := by
  refine ⟨by decide, by decide, ?_, ?_⟩
  · exact ((C1_amended_theorem F2c 2).2 1 _ (by decide)).1 (V.r 1) (by decide)
  · exact ((C1_amended_theorem F2c 2).2 1 _ (by decide)).2 (V.r 10) (by decide) (by decide)

/-! ## Claim C2 -/

/-- C2, counterexample: for the straight-line block of `F2c` the analysis
converges with `OutSets[store] = {%a, %p}` (the set live between the add
and the store).  The claim expects `LiveOut(store) = ∅` (reading
`LiveOut(I)` as the stored `OutSets[I]`) or `LiveOut(add) = {%p}`
(reading `LiveOut(I)` as the set live immediately after `I`); the stored
set `{%a, %p}` refutes both readings, since it is non-empty and contains
`%a ≠ %p`. -/
theorem C2_counterexample :
    mlook s2f.OutSets 2 = some [V.r 1, V.r 12] ∧
    ([V.r 1, V.r 12] : VSet) ≠ [] ∧
    V.r 1 ∈ ([V.r 1, V.r 12] : VSet) ∧ V.r 1 ≠ V.r 12 := by
  decide

/-- C2, amended: on `F2c` the analysis converges (a changeless pass is
reached within the fuel) with `Gen(store) = {%a, %p}`, `Kill(store) = ∅`,
and stored sets `OutSets[ret] = ∅`, `OutSets[store] = {%a, %p}`,
`OutSets[add] = {%p, %x, %y}` and `InSets[block] = ∅`.  Reading the live
set *after* an instruction (the claim's `LiveOut`): after `ret` it is
`InSets[block] = ∅`, after `store` it is `OutSets[ret] = ∅`, after `add`
it is `OutSets[store] = {%a, %p}` (not `{%p}`: the store still reads
`%a`), and the set live on entry (`LiveIn(block)`) is
`OutSets[add] = {%p, %x, %y} = {%x, %y, %p}`. -/
theorem C2_amended_theorem :
    (runOnFunction F2c 10 st0).isSome = true ∧
    mlook s2f.GenSets 2 = some [V.r 1, V.r 12] ∧
    mlook s2f.KillSets 2 = none ∧
    mlook s2f.OutSets 3 = some [] ∧
    mlook s2f.OutSets 2 = some [V.r 1, V.r 12] ∧
    mlook s2f.OutSets 1 = some [V.r 12, V.r 10, V.r 11] ∧
    mlook s2f.InSets 0 = some [] := by
  decide

/-! ## Claim C3 -/

/-- C3, counterexample: `visitCallInst` calls `addResultToKill`
unconditionally, so the void call of `Fv` (id 30) gets kill set
`{self}` although it is not value-producing; the claim says a call
returning void has an empty kill set. -/
theorem C3_counterexample :
    getKill (visitF Fv st0) 30 = [V.r 30] ∧
    valueProducing (Kind.call true) = false ∧
    ([V.r 30] : VSet) ≠ [] := by
  decide

/-- C3, amended: for every instruction, `KillSet(I)` is either empty or
exactly `{I}`; it equals `{I}` precisely when the instruction kind's
`visit` method calls `addResultToKill` — which includes `ret`, `invoke`
and every `call` (void or not) — not precisely when the instruction is
value-producing. -/
theorem C3_amended_theorem (F : Fn) (hwf : wf F) :
    ∀ B ∈ F.blocks, ∀ I ∈ B.instrs,
      (getKill (visitF F st0) I.id = [] ∨ getKill (visitF F st0) I.id = [V.r I.id]) ∧
      (getKill (visitF F st0) I.id = [V.r I.id] ↔ killsResult I.kind = true) ∧
      (∀ b, I.kind = Kind.call b → getKill (visitF F st0) I.id = [V.r I.id]) := by
  intro B hB I hI
  obtain ⟨hg, hk⟩ := visitF_classifier F hwf B hB I hI
  rw [hk]
  have hko : killOfInstr I = if killsResult I.kind then [V.r I.id] else [] := rfl
  by_cases h : killsResult I.kind = true
  · rw [hko, if_pos h]
    exact ⟨Or.inr rfl, ⟨fun _ => h, fun _ => rfl⟩, fun b hb => rfl⟩
  · rw [hko, if_neg h]
    refine ⟨Or.inl rfl, ⟨fun he => absurd he (by simp), fun he => absurd he h⟩,
      fun b hb => ?_⟩
    rw [hb] at h
    exact absurd rfl h

/-- C3 witness: the amended theorem applied to `Fv`, whose void call
(id 30) kills itself. -/
theorem C3_amended_witness :
    wf Fv ∧ getKill (visitF Fv st0) 30 = [V.r 30] := by
  refine ⟨by decide, ?_⟩
  exact (C3_amended_theorem Fv (by decide)
    ⟨7, [⟨30, Kind.call true, [V.r 10, V.c 99]⟩, ⟨31, Kind.ret, []⟩], []⟩ (by decide)
    ⟨30, Kind.call true, [V.r 10, V.c 99]⟩ (by decide)).2.2 true rfl

/-! ## Claim C4 -/

/-- C4, counterexample: the visitor has no override for the kind of
instruction 40 of `Fu` (e.g. a `freeze`), so `InstVisitor` falls through
to the no-op `visitInstruction` and both sets stay empty — the claim's
conservative fallback would instead generate the operand `%x` and kill
self. -/
theorem C4_counterexample :
    getGen (visitF Fu st0) 40 = [] ∧
    getKill (visitF Fu st0) 40 = [] ∧
    conservativeGen ⟨40, Kind.unknown, [V.r 10]⟩ = [V.r 10] ∧
    conservativeKill ⟨40, Kind.unknown, [V.r 10]⟩ = [V.r 40] ∧
    ([] : VSet) ≠ [V.r 10] := by
  decide

/-- C4, amended: an instruction whose kind has no `visit` override is
classified with empty gen and kill sets (the `InstVisitor` default is a
no-op), silently under-approximating liveness, rather than falling back
to the conservative rule. -/
theorem C4_amended_theorem (F : Fn) (hwf : wf F) :
    ∀ B ∈ F.blocks, ∀ I ∈ B.instrs, I.kind = Kind.unknown →
      getGen (visitF F st0) I.id = [] ∧ getKill (visitF F st0) I.id = [] := by
  intro B hB I hI hk
  obtain ⟨hg, hkk⟩ := visitF_classifier F hwf B hB I hI
  rw [hg, hkk]
  simp [genOfInstr, killOfInstr, hk, gensOperands, killsResult]

/-- C4 witness: the amended theorem applied to `Fu` and its unrecognised
instruction 40. -/
theorem C4_amended_witness :
    wf Fu ∧ (getGen (visitF Fu st0) 40 = [] ∧ getKill (visitF Fu st0) 40 = []) := by
  refine ⟨by decide, ?_⟩
  exact C4_amended_theorem Fu (by decide)
    ⟨8, [⟨40, Kind.unknown, [V.r 10]⟩, ⟨41, Kind.ret, []⟩], []⟩ (by decide)
    ⟨40, Kind.unknown, [V.r 10]⟩ (by decide) rfl

/-! ## Claim C7 -/

/-- C7: for every store instruction with (non-constant, non-label) value
operand `%v = r a` and pointer operand `%p = r p`, the classifier
produces `Gen = {v, p}` and `Kill = ∅`. -/
theorem C7_theorem (F : Fn) (hwf : wf F) :
    ∀ B ∈ F.blocks, ∀ I ∈ B.instrs, ∀ a p : Nat, I.kind = Kind.store →
      I.operands = [V.r a, V.r p] →
      (∀ x, x ∈ getGen (visitF F st0) I.id ↔ (x = V.r a ∨ x = V.r p)) ∧
      getKill (visitF F st0) I.id = [] := by
  intro B hB I hI a p hk hops
  obtain ⟨hg, hkk⟩ := visitF_classifier F hwf B hB I hI
  rw [hg, hkk]
  constructor
  · intro x
    have hgo : genOfInstr I = addOperandsToGen [V.r a, V.r p] [] := by
      simp [genOfInstr, hk, hops, gensOperands]
    rw [hgo, mem_addOperandsToGen]
    simp only [List.mem_cons, List.not_mem_nil]
    constructor
    · rintro (h | ⟨h1, _⟩)
      · cases h
      · rcases h1 with h1 | h1 | h1
        · exact Or.inl h1
        · exact Or.inr h1
        · cases h1
    · rintro (rfl | rfl)
      · exact Or.inr ⟨Or.inl rfl, a, rfl⟩
      · exact Or.inr ⟨Or.inr (Or.inl rfl), p, rfl⟩
  · simp [killOfInstr, hk, killsResult]

/-- C7 witness: the theorem applied to the store of `F2c`
(`store %a, %p` with `%a = r 1`, `%p = r 12`). -/
theorem C7_witness :
    wf F2c ∧
    (V.r 1 ∈ getGen (visitF F2c st0) 2 ↔ (V.r 1 = V.r 1 ∨ V.r 1 = V.r 12)) ∧
    getKill (visitF F2c st0) 2 = [] := by
  have happ := C7_theorem F2c (by decide)
    ⟨0, [⟨1, Kind.binop, [V.r 10, V.r 11]⟩, ⟨2, Kind.store, [V.r 1, V.r 12]⟩,
         ⟨3, Kind.ret, []⟩], []⟩ (by decide)
    ⟨2, Kind.store, [V.r 1, V.r 12]⟩ (by decide) 1 12 rfl rfl
  exact ⟨by decide, happ.1 (V.r 1), happ.2⟩

/-! ## Claim C8 -/

/-- C8: no compile-time constant and no basic-block label is ever an
element of any gen set stored by the classifier: every `GenSets` entry
contains only register-like values. -/
theorem C8_theorem (F : Fn) (i : Nat) (o : VSet)
    (h : mlook (visitF F st0).GenSets i = some o) (n : Nat) :
    V.c n ∉ o ∧ V.lbl n ∉ o := by
  have hreg := visitList_gens_reg (allInstrs F) st0
    (fun i2 o2 ho2 => nomatch ho2) i o h
  constructor
  · intro hx
    have hr := hreg _ hx
    simp [isReg] at hr
  · intro hx
    have hr := hreg _ hx
    simp [isReg] at hr

/-- C8 witness: applied to the store of `F2c`, whose gen set is
`{%a, %p}`; the constant `c 5` and the label `lbl 5` are not in it. -/
theorem C8_witness :
    mlook (visitF F2c st0).GenSets 2 = some [V.r 1, V.r 12] ∧
    (V.c 5 ∉ ([V.r 1, V.r 12] : VSet) ∧ V.lbl 5 ∉ ([V.r 1, V.r 12] : VSet)) := by
  exact ⟨by decide, C8_theorem F2c 2 [V.r 1, V.r 12] (by decide) 5⟩

/-! ## Claim C6 -/

/-- C6, code bug: on the well-formed function `F6` (every block non-empty
with a terminator, all successor edges valid) the repeat-until-stable
driver never terminates: the `InSets` lists of the three cycle blocks
alternate between two insertion orders with identical element sets from
pass 3 on, and the order-sensitive `SetVector::operator==` makes every
pass report a change, so `loop` exhausts any amount of fuel. -/
theorem C6_code_bug_theorem : ∀ fuel : Nat, runOnFunction F6 fuel st0 = none := by
  have h0 : passBlocks F6 (iterSt F6 0) = (iterSt F6 1, true) := by decide
  have h1 : passBlocks F6 (iterSt F6 1) = (iterSt F6 2, true) := by decide
  have h2 : passBlocks F6 (iterSt F6 2) = (iterSt F6 3, true) := by decide
  have h3 : passBlocks F6 (iterSt F6 3) = (iterSt F6 4, true) := by decide
  have h4 : passBlocks F6 (iterSt F6 4) = (iterSt F6 3, true) := by decide
  have hstep : ∀ (n : Nat) (s t : St), passBlocks F6 s = (t, true) →
      loop F6 (Nat.succ n) s = loop F6 n t := by
    intro n s t h
    show (let p := passBlocks F6 s
          if p.2 then loop F6 n p.1 else some p.1) = loop F6 n t
    rw [h]
    rfl
  have hper : ∀ n, loop F6 n (iterSt F6 3) = none ∧ loop F6 n (iterSt F6 4) = none := by
    intro n
    induction n with
    | zero => exact ⟨rfl, rfl⟩
    | succ n ih => exact ⟨(hstep n _ _ h3).trans ih.2, (hstep n _ _ h4).trans ih.1⟩
  intro fuel
  show loop F6 fuel (visitF F6 st0) = none
  rw [show visitF F6 st0 = iterSt F6 0 from rfl]
  cases fuel with
  | zero => rfl
  | succ f1 =>
      rw [hstep f1 _ _ h0]
      cases f1 with
      | zero => rfl
      | succ f2 =>
          rw [hstep f2 _ _ h1]
          cases f2 with
          | zero => rfl
          | succ f3 =>
              rw [hstep f3 _ _ h2]
              exact (hper f3).1

/-! ## Claim C9 -/

/-- C9: across successive passes of the fixpoint driver, every stored
`InSets` and `OutSets` entry persists and is non-decreasing in the
element-wise subset order. -/
theorem C9_theorem (F : Fn) (hwf : wf F) (n : Nat) :
    (∀ b v, mlook (iterSt F n).InSets b = some v →
      ∃ w, mlook (iterSt F (n + 1)).InSets b = some w ∧ v ⊆ w) ∧
    (∀ i o, mlook (iterSt F n).OutSets i = some o →
      ∃ w, mlook (iterSt F (n + 1)).OutSets i = some w ∧ o ⊆ w) :=
  ⟨(iterSt_mono F hwf n).1, (iterSt_mono F hwf n).2⟩

/-- C9 witness: applied to `F2c` between passes 1 and 2, at the add
instruction's stored out set. -/
theorem C9_witness :
    wf F2c ∧
    (∃ w, mlook (iterSt F2c 2).OutSets 1 = some w ∧
      ([V.r 12, V.r 10, V.r 11] : VSet) ⊆ w) := by
  refine ⟨by decide, ?_⟩
  exact (C9_theorem F2c (by decide) 1).2 1 [V.r 12, V.r 10, V.r 11] (by decide)

/-! ## Claim C10 -/

/-- C10: `computeOutSets(B)` modifies only the stored `InSets` entry of
`B` and the `OutSets` entries of `B`'s own instructions; every other
block's `InSets` entry and every instruction outside `B`'s `OutSets`
entry is unchanged, and when the recomputed boundary equals `B`'s
previously stored `InSets` entry nothing is written and no change is
reported. -/
theorem C10_theorem (F : Fn) (s : St) (B : Block) :
    (∀ b : Nat, b ≠ B.id →
      mlook ((computeOutSets F s B).1).InSets b = mlook s.InSets b) ∧
    (∀ i : Nat, i ∉ B.instrs.map Instr.id →
      mlook ((computeOutSets F s B).1).OutSets i = mlook s.OutSets i) ∧
    (mlook s.InSets B.id = some (boundary F s B) → computeOutSets F s B = (s, false)) :=
  ⟨fun _ hb => computeOutSets_InSets_ne F s B hb,
   fun _ hi => computeOutSets_OutSets_ne F s B hi,
   fun h => computeOutSets_skip F s B h⟩

/-- C10 witness: recomputing the single block of `F2c` from the empty
state leaves foreign keys (block 5, instruction 9) untouched, and at the
converged state the skip branch is taken. -/
theorem C10_witness :
    mlook ((computeOutSets F2c st0 B2c).1).InSets 5 = mlook st0.InSets 5 ∧
    mlook ((computeOutSets F2c st0 B2c).1).OutSets 9 = mlook st0.OutSets 9 ∧
    computeOutSets F2c s2f B2c = (s2f, false) :=
  ⟨(C10_theorem F2c st0 B2c).1 5 (by decide),
   (C10_theorem F2c st0 B2c).2.1 9 (by decide),
   (C10_theorem F2c s2f B2c).2.2 (by decide)⟩

/-! ## Congruence: a run on `F` depends only on the entries at `F`'s keys -/

/-- Two states agree at every key belonging to the function `F`. -/
def agreeF (F : Fn) (s t : St) : Prop :=
  (∀ B ∈ F.blocks, mlook s.InSets B.id = mlook t.InSets B.id) ∧
  (∀ I ∈ allInstrs F, mlook s.OutSets I.id = mlook t.OutSets I.id ∧
     mlook s.GenSets I.id = mlook t.GenSets I.id ∧
     mlook s.KillSets I.id = mlook t.KillSets I.id)

/-- A state with no entries at any of `F`'s keys. -/
def freshFor (F : Fn) (s : St) : Prop :=
  (∀ B ∈ F.blocks, mlook s.InSets B.id = none) ∧
  (∀ I ∈ allInstrs F, mlook s.OutSets I.id = none ∧ mlook s.GenSets I.id = none ∧
     mlook s.KillSets I.id = none)

instance (F : Fn) (s t : St) : Decidable (agreeF F s t) := by
  unfold agreeF; infer_instance

instance (F : Fn) (s : St) : Decidable (freshFor F s) := by
  unfold freshFor; infer_instance

/-- Agreement of two optional final states at `F`'s keys. -/
def optAgree (F : Fn) : Option St → Option St → Prop
  | some t, some t2 => agreeF F t t2
  | none, none => True
  | _, _ => False

theorem mem_of_head? {l : List Instr} {I : Instr} (h : l.head? = some I) : I ∈ l := by
  cases l with
  | nil => cases h
  | cons a u =>
      injection h with h2
      subst h2
      exact List.mem_cons_self _ _

theorem blockOf_mem {F : Fn} {b : Nat} {B : Block} (h : blockOf F b = some B) :
    B ∈ F.blocks := by
  unfold blockOf at h
  exact List.mem_of_find?_eq_some h

theorem firstInstr_mem {F : Fn} {sb : Nat} {I : Instr} (h : firstInstr F sb = some I) :
    I ∈ allInstrs F := by
  unfold firstInstr at h
  cases hb : blockOf F sb with
  | none => rw [hb] at h; cases h
  | some B =>
      rw [hb] at h
      exact mem_allInstrs.mpr ⟨B, blockOf_mem hb, mem_of_head? h⟩

theorem getGen_agree {F : Fn} {s t : St} (h : agreeF F s t) {I : Instr}
    (hI : I ∈ allInstrs F) : getGen s I.id = getGen t I.id := by
  unfold getGen
  rw [(h.2 I hI).2.1]

theorem getKill_agree {F : Fn} {s t : St} (h : agreeF F s t) {I : Instr}
    (hI : I ∈ allInstrs F) : getKill s I.id = getKill t I.id := by
  unfold getKill
  rw [(h.2 I hI).2.2]

theorem succContrib_agree {F : Fn} {s t : St} (h : agreeF F s t) (sb : Nat) :
    succContrib F s sb = succContrib F t sb := by
  unfold succContrib
  cases hf : firstInstr F sb with
  | none => rfl
  | some I => exact (h.2 I (firstInstr_mem hf)).1

theorem boundaryGo_agree {F : Fn} {s t : St} (h : agreeF F s t) :
    ∀ (l : List Nat) (acc : VSet), boundaryGo F s l acc = boundaryGo F t l acc := by
  intro l
  induction l with
  | nil => intro acc; rfl
  | cons sb u ih =>
      intro acc
      simp only [boundaryGo, succContrib_agree h sb]
      exact ih _

theorem boundary_agree {F : Fn} {s t : St} (h : agreeF F s t) (B : Block) :
    boundary F s B = boundary F t B :=
  boundaryGo_agree h B.succs []

theorem agreeF_setIn {F : Fn} {s t : St} (h : agreeF F s t) (b : Nat) (v : VSet) :
    agreeF F { s with InSets := mset s.InSets b v }
      { t with InSets := mset t.InSets b v } := by
  refine ⟨fun B hB => ?_, fun I hI => h.2 I hI⟩
  by_cases hb : B.id = b
  · subst hb
    rw [mlook_mset_self, mlook_mset_self]
  · rw [mlook_mset_ne _ _ _ hb, mlook_mset_ne _ _ _ hb]
    exact h.1 B hB

theorem agreeF_setOut {F : Fn} {s t : St} (h : agreeF F s t) (i : Nat) (o : VSet) :
    agreeF F { s with OutSets := mset s.OutSets i o }
      { t with OutSets := mset t.OutSets i o } := by
  refine ⟨fun B hB => h.1 B hB, fun I hI => ?_⟩
  refine ⟨?_, (h.2 I hI).2.1, (h.2 I hI).2.2⟩
  by_cases hb : I.id = i
  · subst hb
    rw [mlook_mset_self, mlook_mset_self]
  · rw [mlook_mset_ne _ _ _ hb, mlook_mset_ne _ _ _ hb]
    exact (h.2 I hI).1

theorem sweepGo_agree {F : Fn} :
    ∀ (l : List Instr), (∀ I ∈ l, I ∈ allInstrs F) → ∀ {s t : St}, agreeF F s t →
      ∀ IN, agreeF F (sweepGo s IN l) (sweepGo t IN l) := by
  intro l
  induction l with
  | nil => intro _ s t h IN; exact h
  | cons I u ih =>
      intro hl s t h IN
      have hIall : I ∈ allInstrs F := hl I (by simp)
      have ho : flow (getGen t I.id) (getKill t I.id) IN =
          flow (getGen s I.id) (getKill s I.id) IN := by
        rw [getGen_agree h hIall, getKill_agree h hIall]
      simp only [sweepGo, ho]
      exact ih (fun I2 hI2 => hl I2 (by simp [hI2])) (agreeF_setOut h I.id _) _

theorem computeOutSets_agree {F : Fn} {s t : St} {B : Block} (h : agreeF F s t)
    (hB : B ∈ F.blocks) :
    agreeF F ((computeOutSets F s B).1) ((computeOutSets F t B).1) ∧
    (computeOutSets F s B).2 = (computeOutSets F t B).2 := by
  have hbd : boundary F s B = boundary F t B := boundary_agree h B
  have hin : mlook s.InSets B.id = mlook t.InSets B.id := h.1 B hB
  have hinstr : ∀ I ∈ B.instrs.reverse, I ∈ allInstrs F := by
    intro I hI
    exact mem_allInstrs.mpr ⟨B, hB, List.mem_reverse.mp hI⟩
  cases hms : mlook s.InSets B.id with
  | some old =>
      have hmt : mlook t.InSets B.id = some old := by rw [← hin]; exact hms
      by_cases he : old = boundary F s B
      · have hcs : computeOutSets F s B = (s, false) :=
          computeOutSets_some_eq (he ▸ hms)
        have hct : computeOutSets F t B = (t, false) :=
          computeOutSets_some_eq ((hbd ▸ he : old = boundary F t B) ▸ hmt)
        rw [hcs, hct]
        exact ⟨h, rfl⟩
      · have hcs := computeOutSets_some_ne hms he
        have hct := computeOutSets_some_ne hmt
          (fun he2 => he (by rw [he2, hbd]))
        rw [hcs, hct, ← hbd]
        exact ⟨sweepGo_agree _ hinstr (agreeF_setIn h B.id _) _, rfl⟩
  | none =>
      have hmt : mlook t.InSets B.id = none := by rw [← hin]; exact hms
      have hcs := computeOutSets_none (F := F) (B := B) hms
      have hct := computeOutSets_none (F := F) (B := B) hmt
      rw [hcs, hct, ← hbd]
      exact ⟨sweepGo_agree _ hinstr (agreeF_setIn h B.id _) _, rfl⟩

theorem passGo_agree {F : Fn} :
    ∀ (l : List Block), (∀ B ∈ l, B ∈ F.blocks) → ∀ {s t : St}, agreeF F s t →
      ∀ ch, agreeF F ((passGo F l s ch).1) ((passGo F l t ch).1) ∧
        (passGo F l s ch).2 = (passGo F l t ch).2 := by
  intro l
  induction l with
  | nil => intro _ s t h ch; exact ⟨h, rfl⟩
  | cons B u ih =>
      intro hl s t h ch
      obtain ⟨ha, hfl⟩ := computeOutSets_agree h (hl B (by simp))
      simp only [passGo, hfl]
      exact ih (fun B2 hB2 => hl B2 (by simp [hB2])) ha _

theorem loop_agree {F : Fn} :
    ∀ (fuel : Nat) {s t : St}, agreeF F s t →
      optAgree F (loop F fuel s) (loop F fuel t) := by
  intro fuel
  induction fuel with
  | zero => intro s t _; exact trivial
  | succ n ih =>
      intro s t h
      obtain ⟨ha, hfl⟩ := passGo_agree F.blocks (fun _ hh => hh) h false
      have hs : loop F (Nat.succ n) s =
          if (passBlocks F s).2 then loop F n (passBlocks F s).1
          else some (passBlocks F s).1 := rfl
      have ht : loop F (Nat.succ n) t =
          if (passBlocks F t).2 then loop F n (passBlocks F t).1
          else some (passBlocks F t).1 := rfl
      have hfl2 : (passBlocks F s).2 = (passBlocks F t).2 := hfl
      rw [hs, ht, hfl2]
      cases hbt : (passBlocks F t).2 with
      | true => exact ih ha
      | false => exact ha

theorem visitInstr_InSets (s : St) (I : Instr) : (visitInstr s I).InSets = s.InSets := by
  unfold visitInstr
  by_cases hg : gensOperands I.kind <;> by_cases hk : killsResult I.kind <;>
    simp [hg, hk]

theorem visitInstr_OutSets (s : St) (I : Instr) : (visitInstr s I).OutSets = s.OutSets := by
  unfold visitInstr
  by_cases hg : gensOperands I.kind <;> by_cases hk : killsResult I.kind <;>
    simp [hg, hk]

theorem visitInstr_GenSets_self3 (s : St) (I : Instr) :
    mlook (visitInstr s I).GenSets I.id =
      if gensOperands I.kind then
        some (addOperandsToGen I.operands ((mlook s.GenSets I.id).getD []))
      else mlook s.GenSets I.id := by
  unfold visitInstr
  by_cases hg : gensOperands I.kind <;> by_cases hk : killsResult I.kind <;>
    simp [hg, hk, mlook_mset_self]

theorem visitInstr_KillSets_self3 (s : St) (I : Instr) :
    mlook (visitInstr s I).KillSets I.id =
      if killsResult I.kind then
        some (svInsert ((mlook s.KillSets I.id).getD []) (V.r I.id))
      else mlook s.KillSets I.id := by
  unfold visitInstr
  by_cases hg : gensOperands I.kind <;> by_cases hk : killsResult I.kind <;>
    simp [hg, hk, mlook_mset_self]

theorem visitInstr_agree {F : Fn} {s t : St} (h : agreeF F s t) {I : Instr}
    (hI : I ∈ allInstrs F) : agreeF F (visitInstr s I) (visitInstr t I) := by
  have hg : mlook s.GenSets I.id = mlook t.GenSets I.id := (h.2 I hI).2.1
  have hk : mlook s.KillSets I.id = mlook t.KillSets I.id := (h.2 I hI).2.2
  refine ⟨fun B hB => ?_, fun J hJ => ⟨?_, ?_, ?_⟩⟩
  · rw [visitInstr_InSets, visitInstr_InSets]
    exact h.1 B hB
  · rw [visitInstr_OutSets, visitInstr_OutSets]
    exact (h.2 J hJ).1
  · by_cases hij : J.id = I.id
    · rw [hij, visitInstr_GenSets_self3, visitInstr_GenSets_self3, hg]
    · rw [visitInstr_GenSets_ne s I hij, visitInstr_GenSets_ne t I hij]
      exact (h.2 J hJ).2.1
  · by_cases hij : J.id = I.id
    · rw [hij, visitInstr_KillSets_self3, visitInstr_KillSets_self3, hk]
    · rw [visitInstr_KillSets_ne s I hij, visitInstr_KillSets_ne t I hij]
      exact (h.2 J hJ).2.2

theorem visitList_agree {F : Fn} :
    ∀ (l : List Instr), (∀ I ∈ l, I ∈ allInstrs F) → ∀ {s t : St}, agreeF F s t →
      agreeF F (visitList l s) (visitList l t) := by
  intro l
  induction l with
  | nil => intro _ s t h; exact h
  | cons I u ih =>
      intro hl s t h
      exact ih (fun I2 hI2 => hl I2 (by simp [hI2]))
        (visitInstr_agree h (hl I (by simp)))

theorem visitF_agree {F : Fn} {s t : St} (h : agreeF F s t) :
    agreeF F (visitF F s) (visitF F t) :=
  visitList_agree (allInstrs F) (fun _ hh => hh) h

/-! ## Claim C5 -/

/-- C5, counterexample: `runOnFunction` never clears the pass object's
maps, so after analyzing `Fa` (block 100, ret 50) the maps still hold
`Fa`'s entries; the next invocation (on `F2c`) does not start from empty
`LiveIn`/`LiveOut` (or gen/kill) maps, and `Fa`'s entries remain
observable in the state after the second analysis completes. -/
theorem C5_counterexample :
    (runOnFunction Fa 10 st0).isSome = true ∧
    mlook ((runOnFunction Fa 10 st0).getD st0).InSets 100 = some [] ∧
    mlook ((runOnFunction Fa 10 st0).getD st0).KillSets 50 = some [V.r 50] ∧
    (runOnFunction F2c 10 ((runOnFunction Fa 10 st0).getD st0)).isSome = true ∧
    mlook ((runOnFunction F2c 10 ((runOnFunction Fa 10 st0).getD st0)).getD st0).InSets 100
      = some [] ∧
    mlook ((runOnFunction F2c 10 ((runOnFunction Fa 10 st0).getD st0)).getD st0).KillSets 50
      = some [V.r 50] := by
  decide

/-- C5, amended: the maps are member state of the pass object and are
never cleared, so entries of previously analyzed functions are retained;
but as long as the retained state holds no entry at any key of the next
function (distinct instruction/block identities), the next analysis is
unaffected: it terminates in exactly the same way and stores identical
sets at every key of the analyzed function as a run from empty maps. -/
theorem C5_amended_theorem (F : Fn) (fuel : Nat) (s : St) (hf : freshFor F s) :
    optAgree F (runOnFunction F fuel s) (runOnFunction F fuel st0) := by
  have h0 : agreeF F s st0 := by
    refine ⟨fun B hB => ?_, fun I hI => ?_⟩
    · rw [hf.1 B hB]
      rfl
    · obtain ⟨h1, h2, h3⟩ := hf.2 I hI
      exact ⟨by rw [h1]; rfl, by rw [h2]; rfl, by rw [h3]; rfl⟩
  exact loop_agree fuel (visitF_agree h0)

/-- C5 witness: running on `F2c` from the dirty state left by `Fa`
agrees, at every key of `F2c`, with running from the fresh state. -/
theorem C5_amended_witness :
    freshFor F2c ((runOnFunction Fa 10 st0).getD st0) ∧
    optAgree F2c (runOnFunction F2c 10 ((runOnFunction Fa 10 st0).getD st0))
      (runOnFunction F2c 10 st0) :=
  ⟨by decide, C5_amended_theorem F2c 10 _ (by decide)⟩
